import Mathlib

/-!
Verification of the `notugly` pretty-printing library (a Wadler-style
"prettier printer").  The Rust sources are shallowly embedded:

* `FormatDesc` mirrors `src/format.rs`'s `FormatDesc` enum (the layout
  algebra: `Nil`, `Line`, `Text`, `Nest`, `Cat`, `Union`).
* `ProcessedFormat` mirrors the resolved, choice-free token sequence, with
  `layout` embedding its `Display` implementation and `fits` the
  single-line lookahead predicate.
* `be` / `better` / `best` / `pretty` mirror the resolver of
  `src/format.rs`; the work queue `VecDeque<(i32, FormatDesc)>` becomes a
  `List (Int × FormatDesc)` (only front pushes and pops are used).
* The combinators of `src/lib.rs` (`group`, `group_with`, `bracket`,
  `fold`, `spread`, `stack`, `fill`, and the `&`, `+`, `/` operators) are
  embedded on `FormatDesc` directly, the `Document` newtype being a
  transparent wrapper in the source.

Machine integers `i32` are embedded as `Int` (no arithmetic here comes
near overflow) and `String::len` as `String.length`.
-/

/-- The layout-description algebra of `src/format.rs` (`enum FormatDesc`). -/
inductive FormatDesc : Type where
  | Nil : FormatDesc
  | Line : FormatDesc
  | Text : String → FormatDesc
  | Nest : Int → FormatDesc → FormatDesc
  | Cat : FormatDesc → FormatDesc → FormatDesc
  | Union : FormatDesc → FormatDesc → FormatDesc
  deriving Repr, DecidableEq

namespace FormatDesc

/-- Embeds `FormatDesc::flatten_with`: removes indentation and replaces newlines
with `c`. -/
def flatten_with (c : String) : FormatDesc → FormatDesc
  | .Nil => .Nil
  | .Line => .Text c
  | .Text s => .Text s
  | .Nest _ x => flatten_with c x
  | .Cat x y => .Cat (flatten_with c x) (flatten_with c y)
  | .Union x _ => flatten_with c x

/-- Embeds `FormatDesc::flatten`: removes indentation and replaces newlines with a
single space. -/
def flatten (x : FormatDesc) : FormatDesc :=
  x.flatten_with " "

/-- Structural size of a layout tree, the termination measure for the
resolver `be`. -/
def size : FormatDesc → Nat
  | .Nil => 1
  | .Line => 1
  | .Text _ => 1
  | .Nest _ x => 1 + x.size
  | .Cat x y => 1 + x.size + y.size
  | .Union x y => 1 + x.size + y.size

end FormatDesc

/-- The resolved, choice-free token sequence of `src/format.rs`
(`enum ProcessedFormat`). -/
inductive ProcessedFormat : Type where
  | Nil : ProcessedFormat
  | Text : String → ProcessedFormat → ProcessedFormat
  | Line : Int → ProcessedFormat → ProcessedFormat
  deriving Repr, DecidableEq

/-- A run of `n` spaces, as produced by `" ".repeat(n)`. -/
def spaces (n : Nat) : String :=
  String.mk (List.replicate n ' ')

namespace ProcessedFormat

/-- The `Display` implementation for `ProcessedFormat` (Wadler's `layout`):
text is emitted as is, `Line i` emits a newline followed by `i` spaces,
where a negative `i` is clamped to zero (`try_into().unwrap_or(0)`). -/
def layout : ProcessedFormat → String
  | .Nil => ""
  | .Text s x => s ++ x.layout
  | .Line i x => "\n" ++ spaces i.toNat ++ x.layout

/-- Embeds `ProcessedFormat::fits`: says whether the document fits in the
remaining space `w`. -/
def fits (p : ProcessedFormat) (w : Int) : Bool :=
  if w < 0 then false
  else
    match p with
    | .Nil => true
    | .Line _ _ => true
    | .Text s x => x.fits (w - (s.length : Int))

end ProcessedFormat

/-- Embeds `better`: returns `x` if it fits in `w - k` columns, otherwise `y`. -/
def better (w k : Int) (x y : ProcessedFormat) : ProcessedFormat :=
  if x.fits (w - k) then x else y

/-- Total size of the work queue, the termination measure for `be`. -/
def queueSize : List (Int × FormatDesc) → Nat
  | [] => 0
  | (_, d) :: rest => d.size + queueSize rest

/-- The resolver `be` of `src/format.rs`: given a queue of
(indentation, document) pairs, chooses the best layout for width `w` with
`k` columns already used. -/
def be (w k : Int) (z : List (Int × FormatDesc)) : ProcessedFormat :=
  match z with
  | [] => .Nil
  | (_, .Nil) :: rest => be w k rest
  | (i, .Cat x y) :: rest => be w k ((i, x) :: (i, y) :: rest)
  | (i, .Nest j x) :: rest => be w k ((i + j, x) :: rest)
  | (_, .Text s) :: rest => .Text s (be w ((s.length : Int) + k) rest)
  | (i, .Line) :: rest => .Line i (be w i rest)
  | (i, .Union x y) :: rest =>
      better w k (be w k ((i, x) :: rest)) (be w k ((i, y) :: rest))
termination_by queueSize z
decreasing_by
  all_goals simp [queueSize, FormatDesc.size]
  all_goals omega

namespace FormatDesc

/-- Embeds `FormatDesc::best`: best layout within `w` columns, `k` already used. -/
def best (x : FormatDesc) (w k : Int) : ProcessedFormat :=
  be w k [(0, x)]

/-- Embeds `FormatDesc::pretty`: best layout within `w` columns. -/
def pretty (x : FormatDesc) (w : Int) : ProcessedFormat :=
  x.best w 0

end FormatDesc

/-! The combinator library of `src/lib.rs`, embedded on `FormatDesc`
(`Document` is a transparent newtype around `FormatDesc` in the source). -/

/-- Embeds `group`: adds the flattened layout as an alternative layout. -/
def group (x : FormatDesc) : FormatDesc :=
  .Union x.flatten x

/-- Embeds `group_with`: adds the layout flattened with separator `c` as an
alternative layout. -/
def group_with (c : String) (x : FormatDesc) : FormatDesc :=
  .Union (x.flatten_with c) x

/-- The `+` operator on documents: `x & text(" ") & y`. -/
def space_join (x y : FormatDesc) : FormatDesc :=
  .Cat (.Cat x (.Text " ")) y

/-- The `/` operator on documents: `x & line() & y`. -/
def break_join (x y : FormatDesc) : FormatDesc :=
  .Cat (.Cat x .Line) y

/-- Embeds `bracket i l x r = group(text(l) & nest(i, line() & x) / text(r))`
(in Rust, `/` binds tighter than `&`). -/
def bracket (i : Int) (l : String) (x : FormatDesc) (r : String) : FormatDesc :=
  group (.Cat (.Text l) (.Cat (.Cat (.Nest i (.Cat .Line x)) .Line) (.Text r)))

/-- Embeds `fold`: left-reduces a list of documents with `op`; `Nil` when empty
(`iter().reduce(op).unwrap_or(nil())`). -/
def fold (xs : List FormatDesc) (op : FormatDesc → FormatDesc → FormatDesc) :
    FormatDesc :=
  match xs with
  | [] => .Nil
  | x :: rest => rest.foldl op x

/-- Embeds `spread`: space-joins a list of documents. -/
def spread (xs : List FormatDesc) : FormatDesc :=
  fold xs space_join

/-- Embeds `stack`: newline-joins a list of documents. -/
def stack (xs : List FormatDesc) : FormatDesc :=
  fold xs break_join

/-- Embeds `fill`: greedy line packing, one `Union` per adjacent pair
(page 14 of the Wadler paper). -/
def fill : List FormatDesc → FormatDesc
  | [] => .Nil
  | [x] => x
  | x :: y :: z =>
      .Union (space_join x.flatten (fill (y.flatten :: z)))
        (break_join x (fill (y :: z)))
termination_by xs => xs.length
decreasing_by
  all_goals simp [List.length]

/-! ### Auxiliary definitions used to state and settle the claims -/

/-- Sum of the literal lengths of a token sequence up to the first line
break (or the end). -/
def firstLineLen : ProcessedFormat → Nat
  | .Nil => 0
  | .Line _ _ => 0
  | .Text s x => s.length + firstLineLen x

/-- A document is flat when it contains no `Line`, `Nest` or `Union`
node; this is the shape of every `flatten_with` output. -/
def isFlat : FormatDesc → Bool
  | .Nil => true
  | .Line => false
  | .Text _ => true
  | .Nest _ _ => false
  | .Cat x y => isFlat x && isFlat y
  | .Union _ _ => false

/-- Whether a document contains a `Line` node. -/
def containsLine : FormatDesc → Bool
  | .Nil => false
  | .Line => true
  | .Text _ => false
  | .Nest _ x => containsLine x
  | .Cat x y => containsLine x || containsLine y
  | .Union x y => containsLine x || containsLine y

/-- The text of a flat document: concatenation of its literals in order.
(On non-flat documents this is just a measurement helper; claims only
apply it to `flatten_with` outputs, which are flat.) -/
def flatText : FormatDesc → String
  | .Nil => ""
  | .Line => "\n"
  | .Text s => s
  | .Nest _ x => flatText x
  | .Cat x y => flatText x ++ flatText y
  | .Union x _ => flatText x

/-- Prepends the literal tokens of a flat document to a token sequence. -/
def prependTokens : FormatDesc → ProcessedFormat → ProcessedFormat
  | .Nil, r => r
  | .Text s, r => .Text s r
  | .Cat x y, r => prependTokens x (prependTokens y r)
  | .Line, r => r
  | .Nest _ _, r => r
  | .Union _ _, r => r

/-- The resolver's recursion bounded by explicit fuel: `none` exactly when
the fuel runs out before the queue is consumed. -/
def beFuel : Nat → Int → Int → List (Int × FormatDesc) → Option ProcessedFormat
  | 0, _, _, _ => none
  | n + 1, w, k, z =>
    match z with
    | [] => some .Nil
    | (_, .Nil) :: rest => beFuel n w k rest
    | (i, .Cat x y) :: rest => beFuel n w k ((i, x) :: (i, y) :: rest)
    | (i, .Nest j x) :: rest => beFuel n w k ((i + j, x) :: rest)
    | (_, .Text s) :: rest =>
        (beFuel n w ((s.length : Int) + k) rest).map (ProcessedFormat.Text s)
    | (i, .Line) :: rest => (beFuel n w i rest).map (ProcessedFormat.Line i)
    | (i, .Union x y) :: rest =>
        match beFuel n w k ((i, x) :: rest), beFuel n w k ((i, y) :: rest) with
        | some a, some b => some (better w k a b)
        | _, _ => none

/-- The resolver's per-item transition rules as a relation between
`(width, used columns, work queue)` and the produced token sequence. -/
inductive Resolves : Int → Int → List (Int × FormatDesc) → ProcessedFormat → Prop where
  | nil (w k : Int) : Resolves w k [] .Nil
  | empty (w k i : Int) (z : List (Int × FormatDesc)) (r : ProcessedFormat) :
      Resolves w k z r → Resolves w k ((i, .Nil) :: z) r
  | cat (w k i : Int) (x y : FormatDesc) (z : List (Int × FormatDesc))
      (r : ProcessedFormat) :
      Resolves w k ((i, x) :: (i, y) :: z) r →
        Resolves w k ((i, .Cat x y) :: z) r
  | nest (w k i j : Int) (x : FormatDesc) (z : List (Int × FormatDesc))
      (r : ProcessedFormat) :
      Resolves w k ((i + j, x) :: z) r →
        Resolves w k ((i, .Nest j x) :: z) r
  | text (w k i : Int) (s : String) (z : List (Int × FormatDesc))
      (r : ProcessedFormat) :
      Resolves w ((s.length : Int) + k) z r →
        Resolves w k ((i, .Text s) :: z) (.Text s r)
  | line (w k i : Int) (z : List (Int × FormatDesc)) (r : ProcessedFormat) :
      Resolves w i z r → Resolves w k ((i, .Line) :: z) (.Line i r)
  | union (w k i : Int) (x y : FormatDesc) (z : List (Int × FormatDesc))
      (a b : ProcessedFormat) :
      Resolves w k ((i, x) :: z) a → Resolves w k ((i, y) :: z) b →
        Resolves w k ((i, .Union x y) :: z) (better w k a b)

/-! ### Helper lemmas: unfolding the resolver, flat documents, fuel and
the resolution relation -/

theorem be_queue_nil (w k : Int) : be w k [] = .Nil := by
  simp [be]

theorem be_cons_nil (w k i : Int) (z : List (Int × FormatDesc)) :
    be w k ((i, .Nil) :: z) = be w k z := by
  simp [be]

theorem be_cons_cat (w k i : Int) (x y : FormatDesc)
    (z : List (Int × FormatDesc)) :
    be w k ((i, .Cat x y) :: z) = be w k ((i, x) :: (i, y) :: z) := by
  simp [be]

theorem be_cons_nest (w k i j : Int) (x : FormatDesc)
    (z : List (Int × FormatDesc)) :
    be w k ((i, .Nest j x) :: z) = be w k ((i + j, x) :: z) := by
  simp [be]

theorem be_cons_text (w k i : Int) (s : String) (z : List (Int × FormatDesc)) :
    be w k ((i, .Text s) :: z) = .Text s (be w ((s.length : Int) + k) z) := by
  simp [be]

theorem be_cons_line (w k i : Int) (z : List (Int × FormatDesc)) :
    be w k ((i, .Line) :: z) = .Line i (be w i z) := by
  simp [be]

theorem be_cons_union (w k i : Int) (x y : FormatDesc)
    (z : List (Int × FormatDesc)) :
    be w k ((i, .Union x y) :: z) =
      better w k (be w k ((i, x) :: z)) (be w k ((i, y) :: z)) := by
  simp [be]

theorem fits_eq_firstLineLen (p : ProcessedFormat) (w : Int) :
    p.fits w = decide ((firstLineLen p : Int) ≤ w) := by
  induction p generalizing w with
  | Nil =>
      simp only [ProcessedFormat.fits, firstLineLen]
      by_cases h : w < 0
      · simp [h]
      · simp [h, Int.not_lt.mp h]
  | Text s x ih =>
      simp only [ProcessedFormat.fits, firstLineLen]
      by_cases h : w < 0
      · simp [h]
        omega
      · simp [h, ih]
        constructor <;> (intro; push_cast at *; omega)
  | Line i x _ =>
      simp only [ProcessedFormat.fits, firstLineLen]
      by_cases h : w < 0
      · simp [h]
      · simp [h, Int.not_lt.mp h]

theorem isFlat_flatten_with (c : String) (x : FormatDesc) :
    isFlat (x.flatten_with c) = true := by
  induction x with
  | Nil => rfl
  | Line => rfl
  | Text s => rfl
  | Nest i x ih => simpa [FormatDesc.flatten_with, isFlat] using ih
  | Cat x y ihx ihy => simp [FormatDesc.flatten_with, isFlat, ihx, ihy]
  | Union x y ihx _ => simpa [FormatDesc.flatten_with, isFlat] using ihx

theorem flatten_with_of_isFlat (c : String) (d : FormatDesc)
    (hd : isFlat d = true) : d.flatten_with c = d := by
  induction d with
  | Nil => rfl
  | Line => simp [isFlat] at hd
  | Text s => rfl
  | Nest i x _ => simp [isFlat] at hd
  | Cat x y ihx ihy =>
      simp only [isFlat, Bool.and_eq_true] at hd
      simp [FormatDesc.flatten_with, ihx hd.1, ihy hd.2]
  | Union x y _ _ => simp [isFlat] at hd

theorem flatten_with_flatten_with (c c' : String) (x : FormatDesc) :
    (x.flatten_with c').flatten_with c = x.flatten_with c' :=
  flatten_with_of_isFlat c _ (isFlat_flatten_with c' x)

theorem be_of_isFlat (d : FormatDesc) (hd : isFlat d = true) :
    ∀ (w k i : Int) (z : List (Int × FormatDesc)),
      be w k ((i, d) :: z) =
        prependTokens d (be w (k + ((flatText d).length : Int)) z) := by
  induction d with
  | Nil =>
      intro w k i z
      simp [be_cons_nil, prependTokens, flatText]
  | Line => simp [isFlat] at hd
  | Text s =>
      intro w k i z
      simp [be_cons_text, prependTokens, flatText]
      rw [Int.add_comm]
  | Nest j x _ => simp [isFlat] at hd
  | Cat x y ihx ihy =>
      simp only [isFlat, Bool.and_eq_true] at hd
      intro w k i z
      rw [be_cons_cat, ihx hd.1, ihy hd.2]
      simp only [prependTokens, flatText]
      rw [String.length_append]
      push_cast
      ring_nf
  | Union x y _ _ => simp [isFlat] at hd

theorem layout_prependTokens (d : FormatDesc) (hd : isFlat d = true)
    (r : ProcessedFormat) :
    (prependTokens d r).layout = flatText d ++ r.layout := by
  induction d generalizing r with
  | Nil => simp [prependTokens, flatText]
  | Line => simp [isFlat] at hd
  | Text s => simp [prependTokens, flatText, ProcessedFormat.layout]
  | Nest j x _ => simp [isFlat] at hd
  | Cat x y ihx ihy =>
      simp only [isFlat, Bool.and_eq_true] at hd
      simp [prependTokens, flatText, ihx hd.1, ihy hd.2, String.append_assoc]
  | Union x y _ _ => simp [isFlat] at hd

theorem firstLineLen_prependTokens (d : FormatDesc) (hd : isFlat d = true)
    (r : ProcessedFormat) :
    firstLineLen (prependTokens d r) = (flatText d).length + firstLineLen r := by
  induction d generalizing r with
  | Nil => simp [prependTokens, flatText]
  | Line => simp [isFlat] at hd
  | Text s => simp [prependTokens, flatText, firstLineLen]
  | Nest j x _ => simp [isFlat] at hd
  | Cat x y ihx ihy =>
      simp only [isFlat, Bool.and_eq_true] at hd
      simp [prependTokens, flatText, ihx hd.1, ihy hd.2, String.length_append]
      ring
  | Union x y _ _ => simp [isFlat] at hd

theorem layout_be_flat (d : FormatDesc) (hd : isFlat d = true)
    (w k i : Int) : (be w k [(i, d)]).layout = flatText d := by
  rw [be_of_isFlat d hd, be_queue_nil, layout_prependTokens d hd,
    ProcessedFormat.layout]
  simp

theorem fits_be_flat (d : FormatDesc) (hd : isFlat d = true)
    (w k i v : Int) :
    (be w k [(i, d)]).fits v = decide (((flatText d).length : Int) ≤ v) := by
  rw [be_of_isFlat d hd, be_queue_nil, fits_eq_firstLineLen,
    firstLineLen_prependTokens d hd]
  simp [firstLineLen]

theorem size_pos (d : FormatDesc) : 0 < d.size := by
  cases d <;> simp [FormatDesc.size]

theorem beFuel_mono :
    ∀ (n m : Nat) (w k : Int) (z : List (Int × FormatDesc))
      (r : ProcessedFormat), beFuel n w k z = some r → n ≤ m →
        beFuel m w k z = some r := by
  intro n
  induction n with
  | zero => intro m w k z r h; simp [beFuel] at h
  | succ n ih =>
      intro m w k z r h hm
      obtain ⟨m', rfl⟩ : ∃ m', m = m' + 1 := ⟨m - 1, by omega⟩
      have hnm : n ≤ m' := by omega
      cases z with
      | nil => simpa [beFuel] using h
      | cons hd rest =>
          obtain ⟨i, d⟩ := hd
          cases d with
          | Nil =>
              simp only [beFuel] at h ⊢
              exact ih m' w k rest r h hnm
          | Cat x y =>
              simp only [beFuel] at h ⊢
              exact ih m' w k ((i, x) :: (i, y) :: rest) r h hnm
          | Nest j x =>
              simp only [beFuel] at h ⊢
              exact ih m' w k ((i + j, x) :: rest) r h hnm
          | Text s =>
              simp only [beFuel] at h ⊢
              cases hx : beFuel n w ((s.length : Int) + k) rest with
              | none => rw [hx] at h; simp at h
              | some a =>
                  rw [hx] at h
                  rw [ih m' w ((s.length : Int) + k) rest a hx hnm]
                  exact h
          | Line =>
              simp only [beFuel] at h ⊢
              cases hx : beFuel n w i rest with
              | none => rw [hx] at h; simp at h
              | some a =>
                  rw [hx] at h
                  rw [ih m' w i rest a hx hnm]
                  exact h
          | Union x y =>
              simp only [beFuel] at h ⊢
              cases hx : beFuel n w k ((i, x) :: rest) with
              | none => rw [hx] at h; simp at h
              | some a =>
                  cases hy : beFuel n w k ((i, y) :: rest) with
                  | none => rw [hx, hy] at h; simp at h
                  | some b =>
                      rw [hx, hy] at h
                      rw [ih m' w k ((i, x) :: rest) a hx hnm,
                        ih m' w k ((i, y) :: rest) b hy hnm]
                      exact h

theorem beFuel_complete :
    ∀ (N : Nat) (z : List (Int × FormatDesc)), queueSize z ≤ N →
      ∀ (w k : Int), ∃ n, beFuel n w k z = some (be w k z) := by
  intro N
  induction N with
  | zero =>
      intro z hz w k
      cases z with
      | nil => exact ⟨1, by simp [beFuel, be_queue_nil]⟩
      | cons hd rest =>
          exfalso
          obtain ⟨i, d⟩ := hd
          have := size_pos d
          simp [queueSize] at hz
          omega
  | succ N ih =>
      intro z hz w k
      cases z with
      | nil => exact ⟨1, by simp [beFuel, be_queue_nil]⟩
      | cons hd rest =>
          obtain ⟨i, d⟩ := hd
          cases d with
          | Nil =>
              obtain ⟨n, hn⟩ := ih rest
                (by simp [queueSize, FormatDesc.size] at hz ⊢; omega) w k
              exact ⟨n + 1, by simp [beFuel, hn, be_cons_nil]⟩
          | Cat x y =>
              obtain ⟨n, hn⟩ := ih ((i, x) :: (i, y) :: rest)
                (by simp [queueSize, FormatDesc.size] at hz ⊢; omega) w k
              exact ⟨n + 1, by simp [beFuel, hn, be_cons_cat]⟩
          | Nest j x =>
              obtain ⟨n, hn⟩ := ih ((i + j, x) :: rest)
                (by simp [queueSize, FormatDesc.size] at hz ⊢; omega) w k
              exact ⟨n + 1, by simp [beFuel, hn, be_cons_nest]⟩
          | Text s =>
              obtain ⟨n, hn⟩ := ih rest
                (by simp [queueSize, FormatDesc.size] at hz ⊢; omega) w
                ((s.length : Int) + k)
              exact ⟨n + 1, by simp [beFuel, hn, be_cons_text]⟩
          | Line =>
              obtain ⟨n, hn⟩ := ih rest
                (by simp [queueSize, FormatDesc.size] at hz ⊢; omega) w i
              exact ⟨n + 1, by simp [beFuel, hn, be_cons_line]⟩
          | Union x y =>
              obtain ⟨n1, h1⟩ := ih ((i, x) :: rest)
                (by simp [queueSize, FormatDesc.size] at hz ⊢; omega) w k
              obtain ⟨n2, h2⟩ := ih ((i, y) :: rest)
                (by simp [queueSize, FormatDesc.size] at hz ⊢; omega) w k
              refine ⟨max n1 n2 + 1, ?_⟩
              have h1' := beFuel_mono n1 (max n1 n2) w k _ _ h1
                (le_max_left _ _)
              have h2' := beFuel_mono n2 (max n1 n2) w k _ _ h2
                (le_max_right _ _)
              simp [beFuel, h1', h2', be_cons_union]

theorem resolves_eq_be (w k : Int) (z : List (Int × FormatDesc))
    (r : ProcessedFormat) (h : Resolves w k z r) : r = be w k z := by
  induction h <;>
    simp_all [be_queue_nil, be_cons_nil, be_cons_cat, be_cons_nest,
      be_cons_text, be_cons_line, be_cons_union]

theorem resolves_be :
    ∀ (N : Nat) (z : List (Int × FormatDesc)), queueSize z ≤ N →
      ∀ (w k : Int), Resolves w k z (be w k z) := by
  intro N
  induction N with
  | zero =>
      intro z hz w k
      cases z with
      | nil => rw [be_queue_nil]; exact .nil w k
      | cons hd rest =>
          exfalso
          obtain ⟨i, d⟩ := hd
          have := size_pos d
          simp [queueSize] at hz
          omega
  | succ N ih =>
      intro z hz w k
      cases z with
      | nil => rw [be_queue_nil]; exact .nil w k
      | cons hd rest =>
          obtain ⟨i, d⟩ := hd
          cases d with
          | Nil =>
              rw [be_cons_nil]
              exact .empty w k i rest _ (ih rest
                (by simp [queueSize, FormatDesc.size] at hz ⊢; omega) w k)
          | Cat x y =>
              rw [be_cons_cat]
              exact .cat w k i x y rest _ (ih ((i, x) :: (i, y) :: rest)
                (by simp [queueSize, FormatDesc.size] at hz ⊢; omega) w k)
          | Nest j x =>
              rw [be_cons_nest]
              exact .nest w k i j x rest _ (ih ((i + j, x) :: rest)
                (by simp [queueSize, FormatDesc.size] at hz ⊢; omega) w k)
          | Text s =>
              rw [be_cons_text]
              exact .text w k i s rest _ (ih rest
                (by simp [queueSize, FormatDesc.size] at hz ⊢; omega) w
                ((s.length : Int) + k))
          | Line =>
              rw [be_cons_line]
              exact .line w k i rest _ (ih rest
                (by simp [queueSize, FormatDesc.size] at hz ⊢; omega) w i)
          | Union x y =>
              rw [be_cons_union]
              exact .union w k i x y rest _ _
                (ih ((i, x) :: rest)
                  (by simp [queueSize, FormatDesc.size] at hz ⊢; omega) w k)
                (ih ((i, y) :: rest)
                  (by simp [queueSize, FormatDesc.size] at hz ⊢; omega) w k)

/-! ### The claims -/

/-- C1: at top level `pretty(group x, w)` renders the flattened form of
`x` exactly when its length fits within `w`, and otherwise renders `x` as
given; at width 3 the grouped break collapses to `"a b"` and at width 2 it
expands to `"a\nb"`. -/
theorem group_pretty_spec (x : FormatDesc) (w : Int) :
    FormatDesc.pretty (group x) w
      = (if (((flatText x.flatten).length : Int)) ≤ w then x.flatten.pretty w
         else x.pretty w)
    ∧ ((group (break_join (FormatDesc.Text "a") (.Text "b"))).pretty 3).layout
        = "a b"
    ∧ ((group (break_join (FormatDesc.Text "a") (.Text "b"))).pretty 2).layout
        = "a\nb" := by
  refine ⟨?_, ?_, ?_⟩
  · show be w 0 [(0, FormatDesc.Union x.flatten x)] = _
    rw [be_cons_union, better,
      fits_be_flat x.flatten (isFlat_flatten_with " " x)]
    simp only [sub_zero, decide_eq_true_eq]
    rfl
  · simp [FormatDesc.pretty, FormatDesc.best, group, break_join,
      FormatDesc.flatten, FormatDesc.flatten_with, be_cons_union, be_cons_cat,
      be_cons_text, be_cons_line, be_queue_nil, better, ProcessedFormat.fits]
    norm_num [ProcessedFormat.layout, spaces]
    rfl
  · simp [FormatDesc.pretty, FormatDesc.best, group, break_join,
      FormatDesc.flatten, FormatDesc.flatten_with, be_cons_union, be_cons_cat,
      be_cons_text, be_cons_line, be_queue_nil, better, ProcessedFormat.fits]
    norm_num [ProcessedFormat.layout, spaces]
    rfl

/-- C2: `fits` is false for negative remaining width regardless of the
first token; for `w ≥ 0`, `End` and `Break` fit, and `Literal(s, rest)`
fits iff `rest` fits in `w - len(s)`; in general `fits p w` holds exactly
when the sum of literal lengths up to the first break is at most `w`. -/
theorem fits_spec (w i : Int) (s : String) (r p : ProcessedFormat) :
    (w < 0 → p.fits w = false)
    ∧ ProcessedFormat.Nil.fits w = decide (0 ≤ w)
    ∧ (ProcessedFormat.Line i r).fits w = decide (0 ≤ w)
    ∧ (ProcessedFormat.Text s r).fits w
        = (decide (0 ≤ w) && r.fits (w - (s.length : Int)))
    ∧ p.fits w = decide ((firstLineLen p : Int) ≤ w) := by
  refine ⟨?_, ?_, ?_, ?_, fits_eq_firstLineLen p w⟩
  · intro h
    rw [fits_eq_firstLineLen]
    simp
    omega
  · rw [fits_eq_firstLineLen]
    simp [firstLineLen]
  · rw [fits_eq_firstLineLen]
    simp [firstLineLen]
  · rw [fits_eq_firstLineLen, fits_eq_firstLineLen]
    simp only [firstLineLen]
    by_cases h : (0:Int) ≤ w
    · simp [h]
      constructor <;> (intro; omega)
    · simp [h]
      omega

theorem fits_spec_witness :
    (ProcessedFormat.Line 0 .Nil).fits (-1) = false :=
  (fits_spec (-1) 0 "a" .Nil (.Line 0 .Nil)).1 (by decide)

/-- C3: resolution is total — for every finite work queue (in particular,
for every finite layout tree at any start column) and every width, the
fuel-bounded resolver succeeds with enough fuel, producing the resolved
choice-free token sequence `be`. -/
theorem be_total_spec :
    (∀ (w k : Int) (z : List (Int × FormatDesc)),
      ∃ n, beFuel n w k z = some (be w k z))
    ∧ (∀ (x : FormatDesc) (w k : Int),
      ∃ n, beFuel n w k [(0, x)] = some (x.best w k)) :=
  ⟨fun w k z => beFuel_complete (queueSize z) z le_rfl w k,
   fun x w k => beFuel_complete (queueSize [(0, x)]) [(0, x)] le_rfl w k⟩

/-- C4: `fill` on at least two items builds one nested `Union` per
adjacent pair, pairing the space-joined flattened head with the
break-joined head as given; at width 6, `fill [aa, bb, cc]` packs two
items on the first line. -/
theorem fill_spec (x y : FormatDesc) (z : List FormatDesc) :
    fill (x :: y :: z)
      = .Union (space_join x.flatten (fill (y.flatten :: z)))
          (break_join x (fill (y :: z)))
    ∧ ((fill [FormatDesc.Text "aa", .Text "bb", .Text "cc"]).pretty 6).layout
        = "aa bb\ncc" := by
  constructor
  · rw [fill]
  · simp [fill, FormatDesc.pretty, FormatDesc.best, space_join, break_join,
      FormatDesc.flatten, FormatDesc.flatten_with, be_cons_union, be_cons_cat,
      be_cons_text, be_cons_line, be_queue_nil, better, ProcessedFormat.fits]
    norm_num [ProcessedFormat.layout, spaces]
    rfl

/-- C5: `bracket` offers the choice between the one-line form
`l ++ " " ++ flatten(x) ++ " " ++ r` and the expanded form `l`, newline,
`x` indented by `i`, newline, `r`; Scenario C at widths 80 and 5. -/
theorem bracket_spec (i : Int) (l r : String) (x : FormatDesc) :
    bracket i l x r
      = .Union
          ((FormatDesc.Cat (.Text l)
            (.Cat (.Cat (.Nest i (.Cat .Line x)) .Line) (.Text r))).flatten)
          (.Cat (.Text l)
            (.Cat (.Cat (.Nest i (.Cat .Line x)) .Line) (.Text r)))
    ∧ flatText (bracket i l x r).flatten
        = l ++ " " ++ flatText x.flatten ++ " " ++ r
    ∧ ((bracket 2 "[" (spread [FormatDesc.Text "a", .Text "b"]) "]").pretty
        80).layout = "[ a b ]"
    ∧ ((bracket 2 "[" (spread [FormatDesc.Text "a", .Text "b"]) "]").pretty
        5).layout = "[\n  a b\n]" := by
  refine ⟨rfl, ?_, ?_, ?_⟩
  · simp [bracket, group, FormatDesc.flatten, FormatDesc.flatten_with,
      flatText, flatten_with_flatten_with, String.append_assoc]
  · simp [bracket, group, spread, fold, space_join, FormatDesc.pretty,
      FormatDesc.best, FormatDesc.flatten, FormatDesc.flatten_with,
      be_cons_union, be_cons_cat, be_cons_text, be_cons_line, be_cons_nest,
      be_queue_nil, better, ProcessedFormat.fits]
    norm_num [ProcessedFormat.layout, spaces]
    rfl
  · simp [bracket, group, spread, fold, space_join, FormatDesc.pretty,
      FormatDesc.best, FormatDesc.flatten, FormatDesc.flatten_with,
      be_cons_union, be_cons_cat, be_cons_text, be_cons_line, be_cons_nest,
      be_queue_nil, better, ProcessedFormat.fits]
    norm_num [ProcessedFormat.layout, spaces]
    rfl

/-- C6: flattening is width-independent — `flatten n` renders to the text
of its literals at every width, so any two widths give identical text. -/
theorem flatten_width_independent (n : FormatDesc) (w1 w2 : Int) :
    (n.flatten.pretty w1).layout = flatText n.flatten
    ∧ (n.flatten.pretty w1).layout = (n.flatten.pretty w2).layout := by
  have h1 := layout_be_flat n.flatten (isFlat_flatten_with " " n) w1 0 0
  have h2 := layout_be_flat n.flatten (isFlat_flatten_with " " n) w2 0 0
  exact ⟨h1, h1.trans h2.symm⟩

/-- C7: resolution is deterministic and pure — the transition relation
resolves every `(width, column, queue)` configuration to exactly the
token sequence computed by `be`, so any two resolutions of the same
`(tree, width)` pair are equal and render to byte-identical text. -/
theorem resolve_deterministic :
    (∀ (w k : Int) (z : List (Int × FormatDesc)) (r : ProcessedFormat),
      Resolves w k z r → r = be w k z)
    ∧ (∀ (w k : Int) (z : List (Int × FormatDesc)), Resolves w k z (be w k z))
    ∧ (∀ (x : FormatDesc) (w : Int) (r1 r2 : ProcessedFormat),
      Resolves w 0 [(0, x)] r1 → Resolves w 0 [(0, x)] r2 →
        r1 = r2 ∧ r1.layout = r2.layout) := by
  refine ⟨resolves_eq_be, fun w k z => resolves_be (queueSize z) z le_rfl w k, ?_⟩
  intro x w r1 r2 h1 h2
  have e1 := resolves_eq_be w 0 [(0, x)] r1 h1
  have e2 := resolves_eq_be w 0 [(0, x)] r2 h2
  subst e1
  subst e2
  exact ⟨rfl, rfl⟩

theorem resolve_deterministic_witness :
    ProcessedFormat.Text "a" ProcessedFormat.Nil = be 10 0 [(0, FormatDesc.Text "a")] :=
  resolve_deterministic.1 10 0 [(0, .Text "a")] (.Text "a" .Nil)
    (Resolves.text 10 0 0 "a" [] .Nil (Resolves.nil 10 (("a".length : Int) + 0)))

/-- C8: negative indentation is never an error — a `Break` token whose
indent is negative renders as a newline followed by zero spaces, and a
document nested by any negative amount still resolves and renders. -/
theorem negative_indent_clamped (j : Int) (r : ProcessedFormat)
    (h : j < 0) :
    (ProcessedFormat.Line j r).layout = "\n" ++ r.layout
    ∧ ((FormatDesc.Nest j (.Cat .Line (.Text "a"))).pretty 10).layout
        = "\na" := by
  constructor
  · simp [ProcessedFormat.layout, spaces, Int.toNat_eq_zero.mpr h.le]
  · simp [FormatDesc.pretty, FormatDesc.best, be_cons_nest, be_cons_cat,
      be_cons_line, be_cons_text, be_queue_nil]
    simp [ProcessedFormat.layout, spaces, Int.toNat_eq_zero.mpr h.le]

theorem negative_indent_clamped_witness :
    ((-1 : Int) < 0)
    ∧ ((ProcessedFormat.Line (-1) .Nil).layout = "\n" ++ ProcessedFormat.Nil.layout
      ∧ ((FormatDesc.Nest (-1) (.Cat .Line (.Text "a"))).pretty 10).layout
          = "\na") :=
  ⟨by decide, negative_indent_clamped (-1) .Nil (by decide)⟩

/-- C9: flattening with the default separator is idempotent, its output
contains no `Line`, `Nest` or `Union` node, and the two alternatives of
`group x` flatten to identical text (the `Choice` invariant). -/
theorem flatten_idempotent_spec (x : FormatDesc) :
    x.flatten.flatten = x.flatten
    ∧ isFlat x.flatten = true
    ∧ group x = .Union x.flatten x
    ∧ flatText x.flatten.flatten = flatText x.flatten := by
  have hflat : isFlat x.flatten = true := isFlat_flatten_with " " x
  have hidem : x.flatten.flatten = x.flatten :=
    flatten_with_of_isFlat " " x.flatten hflat
  exact ⟨hidem, hflat, rfl, by rw [hidem]⟩

/-- C10: `group_with` does not preserve the `Choice` flatten-equivalence
invariant: with separator `""` and a document containing a break, the two
alternatives of the built `Union` flatten to different texts. -/
theorem group_with_invariant_violation :
    ∃ (c : String) (x : FormatDesc), c ≠ " "
      ∧ containsLine x = true
      ∧ group_with c x = .Union (x.flatten_with c) x
      ∧ flatText (x.flatten_with c).flatten ≠ flatText x.flatten := by
  refine ⟨"", .Line, by decide, rfl, rfl, ?_⟩
  decide
